import Mathlib

/-!
Shallow embedding of `src/quickhull.py` (QuickHull convex-hull implementation).

Python floats are modelled by exact integers `Int` (all claims and the test
corpus use integer coordinates; the geometric predicates only use ring
operations and comparisons). A Python value that may be passed in the input
list is modelled by `PyVal`: a tuple of integers of any arity, or some other
hashable non-tuple object. `ValueError` outcomes are modelled by `PyErr`.
-/

/-- A 2D point, Python tuple `(x, y)` with numeric coordinates. -/
abbrev Point : Type := Int × Int

/-- A hashable Python object appearing in the input list: either a tuple of
numbers (of any arity) or some other non-tuple object identified by a tag. -/
inductive PyVal : Type
  | tup (coords : List Int) : PyVal
  | other (tag : Nat) : PyVal
deriving DecidableEq

/-- The two distinct `ValueError`s `quick_hull` can raise: the explicit
validation error ("Input points must be a list of 2D coordinate tuples.") and
the error raised by `min`/`max` on an empty sequence
("min() arg is an empty sequence"). -/
inductive PyErr : Type
  | invalidInput : PyErr
  | emptyMin : PyErr
deriving DecidableEq

/-- The validation predicate of `quick_hull`:
`isinstance(point, tuple) and len(point) == 2`. -/
def isPointTuple : PyVal → Bool
  | .tup l => l.length == 2
  | .other _ => false

/-- Decode a validated element into a `Point`. -/
def toPoint : PyVal → Option Point
  | .tup [x, y] => some (x, y)
  | _ => none

/-- Encode a `Point` back into the Python value it came from. -/
def ofPoint (p : Point) : PyVal := .tup [p.1, p.2]

/-- Embedding of `cross_product(p1, p2, p3)` from `src/quickhull.py`:
`(p2[0] - p1[0]) * (p3[1] - p1[1]) - (p2[1] - p1[1]) * (p3[0] - p1[0])`. -/
def cross_product (p1 p2 p3 : Point) : Int :=
  (p2.1 - p1.1) * (p3.2 - p1.2) - (p2.2 - p1.2) * (p3.1 - p1.1)

/-- Python `min(a :: l, key)`: fold keeping the current best, replacing it
only when a later element has a strictly smaller key, so the first minimum
in iteration order wins ties. -/
def pyMinBy (key : Point → Int) (a : Point) (l : List Point) : Point :=
  l.foldl (fun best q => if key q < key best then q else best) a

/-- Python `max(a :: l, key)`: fold keeping the current best, replacing it
only when a later element has a strictly larger key, so the first maximum
in iteration order wins ties. -/
def pyMaxBy (key : Point → Int) (a : Point) (l : List Point) : Point :=
  l.foldl (fun best q => if key best < key q then q else best) a

/-- Worker for `dict.fromkeys`: keep each element's first occurrence, in order. -/
def pyDedupGo : List PyVal → List PyVal → List PyVal
  | _, [] => []
  | seen, a :: l =>
    if a ∈ seen then pyDedupGo seen l else a :: pyDedupGo (seen ++ [a]) l

/-- Embedding of `list(dict.fromkeys(points))`: deduplicate preserving first-occurrence
order. -/
def pyDedup (l : List PyVal) : List PyVal := pyDedupGo [] l

/-- Embedding of `left_set = [p for p in point_set if
cross_product(furthest, p, p1) > 0]` from `find_hull`. -/
def left_set (point_set : List Point) (furthest p1 : Point) : List Point :=
  point_set.filter (fun p => 0 < cross_product furthest p p1)

/-- Embedding of `right_set = [p for p in point_set if
cross_product(p2, p, furthest) > 0]` from `find_hull`. -/
def right_set (point_set : List Point) (p2 furthest : Point) : List Point :=
  point_set.filter (fun p => 0 < cross_product p2 p furthest)

lemma cross_product_self_mid (a c : Point) : cross_product a a c = 0 := by
  simp [cross_product]

lemma cross_product_self_last (a b : Point) : cross_product a b b = 0 := by
  simp [cross_product]
  ring

lemma pyMaxBy_mem (key : Point → Int) (a : Point) (l : List Point) :
    pyMaxBy key a l ∈ a :: l := by
  induction l generalizing a with
  | nil => simp [pyMaxBy]
  | cons q l ih =>
    simp only [pyMaxBy, List.foldl_cons]
    by_cases hc : key a < key q
    · rw [if_pos hc]
      have h := ih q
      simp only [pyMaxBy] at h
      rcases List.mem_cons.mp h with h1 | h1 <;> simp [h1]
    · rw [if_neg hc]
      have h := ih a
      simp only [pyMaxBy] at h
      rcases List.mem_cons.mp h with h1 | h1 <;> simp [h1]

lemma length_filter_lt_of_mem_not {l : List Point} {pr : Point → Bool}
    {x : Point} (hx : x ∈ l) (hpx : pr x = false) :
    (l.filter pr).length < l.length := by
  induction l with
  | nil => simp at hx
  | cons a l ih =>
    rcases List.mem_cons.mp hx with h1 | h1
    · subst h1
      simp only [List.filter_cons, hpx]
      exact Nat.lt_succ_of_le (List.length_filter_le pr l)
    · by_cases ha : pr a
      · simp only [List.filter_cons, ha, List.length_cons]
        exact Nat.succ_lt_succ (ih h1)
      · simp only [List.filter_cons, Bool.not_eq_true] at ha
        simp only [List.filter_cons, ha]
        exact Nat.lt_succ_of_lt (ih h1)

lemma left_set_length_lt (a : Point) (rest : List Point) (p1 p2 : Point) :
    (left_set (a :: rest) (pyMaxBy (fun p => |cross_product p1 p2 p|) a rest) p1).length
      < (a :: rest).length := by
  apply length_filter_lt_of_mem_not
    (pyMaxBy_mem (fun p => |cross_product p1 p2 p|) a rest)
  simp [cross_product_self_mid]

lemma right_set_length_lt (a : Point) (rest : List Point) (p1 p2 : Point) :
    (right_set (a :: rest) p2 (pyMaxBy (fun p => |cross_product p1 p2 p|) a rest)).length
      < (a :: rest).length := by
  apply length_filter_lt_of_mem_not
    (pyMaxBy_mem (fun p => |cross_product p1 p2 p|) a rest)
  simp [cross_product_self_last]

/-- Embedding of `find_hull(search_order, point_set, p1, p2)` from
`src/quickhull.py`.
The Python function mutates `search_order` in place and returns the hull
chain; here the state is passed explicitly, so the result is the pair
(returned hull chain, final contents of `search_order`). -/
def find_hull (search_order : List Point) (point_set : List Point)
    (p1 p2 : Point) : List Point × List Point :=
  match point_set with
  | [] => ([], search_order)
  | a :: rest =>
    let furthest := pyMaxBy (fun p => |cross_product p1 p2 p|) a rest
    let so1 := search_order ++ [furthest]
    let ls := left_set (a :: rest) furthest p1
    let rs := right_set (a :: rest) p2 furthest
    let leftRes := find_hull so1 ls p1 furthest
    let rightRes := find_hull leftRes.2 rs furthest p2
    ((leftRes.1 ++ [furthest]) ++ rightRes.1, rightRes.2)
termination_by point_set.length
decreasing_by
  · exact left_set_length_lt a rest p1 p2
  · exact right_set_length_lt a rest p1 p2

/-- The body of `quick_hull` after deduplication and validation, acting on
the decoded points. An empty list makes `min(points, key=...)` raise
`ValueError` (`emptyMin`); otherwise the computation never raises. -/
def quick_hull_core : List Point → Except PyErr (List Point × List Point)
  | [] => .error .emptyMin
  | q :: rest =>
    let points := q :: rest
    let p1 := pyMinBy (fun p => p.1) q rest
    let p2 := pyMaxBy (fun p => p.1) q rest
    let search_order := [p1, p2]
    let upper_hull := points.filter (fun p => 0 < cross_product p1 p2 p)
    let lower_hull := points.filter (fun p => cross_product p1 p2 p < 0)
    let above := find_hull search_order upper_hull p1 p2
    let above_hull := above.1 ++ [p2]
    let below := find_hull above.2 lower_hull p2 p1
    let below_hull := below.1 ++ [p1]
    .ok (above_hull ++ below_hull, below.2)

/-- Embedding of `quick_hull(points)` from `src/quickhull.py`: deduplicate preserving
order, validate that every element is a 2-tuple (else the explicit
`ValueError`, modelled `invalidInput`), then run the core on the decoded
points. -/
def quick_hull (input : List PyVal) : Except PyErr (List Point × List Point) :=
  let pts := pyDedup input
  if pts.all isPointTuple then quick_hull_core (pts.filterMap toPoint)
  else .error .invalidInput

/-- Python `max` with a key returns the first maximum in iteration order:
the list splits around the returned element, every element strictly before
it has a strictly smaller key, and it attains the maximum key overall. -/
lemma pyMaxBy_first_max (key : Point → Int) (a : Point) (l : List Point) :
    ∃ l1 l2, a :: l = l1 ++ pyMaxBy key a l :: l2
      ∧ (∀ q ∈ l1, key q < key (pyMaxBy key a l))
      ∧ (∀ q ∈ a :: l, key q ≤ key (pyMaxBy key a l)) := by
  induction l generalizing a with
  | nil => exact ⟨[], [], by simp [pyMaxBy], by simp, by simp [pyMaxBy]⟩
  | cons q l ih =>
    by_cases hc : key a < key q
    · obtain ⟨l1, l2, hdec, hlt, hle⟩ := ih q
      have hm : pyMaxBy key a (q :: l) = pyMaxBy key q l := by
        simp [pyMaxBy, List.foldl_cons, if_pos hc]
      have hqm : key q ≤ key (pyMaxBy key q l) := hle q (List.mem_cons_self q l)
      refine ⟨a :: l1, l2, ?_, ?_, ?_⟩
      · rw [hm, List.cons_append, ← hdec]
      · intro x hx
        rcases List.mem_cons.mp hx with rfl | hx1
        · rw [hm]; exact lt_of_lt_of_le hc hqm
        · rw [hm]; exact hlt x hx1
      · intro x hx
        rcases List.mem_cons.mp hx with rfl | hx1
        · rw [hm]; exact le_of_lt (lt_of_lt_of_le hc hqm)
        · rw [hm]; exact hle x hx1
    · obtain ⟨l1, l2, hdec, hlt, hle⟩ := ih a
      have hm : pyMaxBy key a (q :: l) = pyMaxBy key a l := by
        simp [pyMaxBy, List.foldl_cons, if_neg hc]
      have hqa : key q ≤ key a := le_of_not_lt hc
      have ham : key a ≤ key (pyMaxBy key a l) := hle a (List.mem_cons_self a l)
      cases l1 with
      | nil =>
        simp only [List.nil_append] at hdec
        have ha := (List.cons.injEq _ _ _ _).mp hdec
        refine ⟨[], q :: l, ?_, ?_, ?_⟩
        · rw [hm, ← ha.1]
          simp
        · simp
        · intro x hx
          rcases List.mem_cons.mp hx with rfl | hx1
          · rw [hm]; exact ham
          rcases List.mem_cons.mp hx1 with rfl | hx2
          · rw [hm, ← ha.1]; exact hqa
          · rw [hm]; exact hle x (List.mem_cons_of_mem a hx2)
      | cons b t =>
        simp only [List.cons_append] at hdec
        have hab := (List.cons.injEq _ _ _ _).mp hdec
        have haml : key a < key (pyMaxBy key a l) := by
          refine hlt a ?_
          rw [hab.1]
          exact List.mem_cons_self b t
        refine ⟨a :: q :: t, l2, ?_, ?_, ?_⟩
        · rw [hm, List.cons_append, List.cons_append, ← hab.2]
        · intro x hx
          rcases List.mem_cons.mp hx with rfl | hx1
          · rw [hm]; exact haml
          rcases List.mem_cons.mp hx1 with rfl | hx2
          · rw [hm]; exact lt_of_le_of_lt hqa haml
          · rw [hm]
            exact hlt x (List.mem_cons_of_mem b hx2)
        · intro x hx
          rcases List.mem_cons.mp hx with rfl | hx1
          · rw [hm]; exact ham
          rcases List.mem_cons.mp hx1 with rfl | hx2
          · rw [hm]; exact le_trans hqa ham
          · rw [hm]; exact hle x (List.mem_cons_of_mem a hx2)

/-- Python `min` with a key returns the first minimum in iteration order. -/
lemma pyMinBy_first_min (key : Point → Int) (a : Point) (l : List Point) :
    ∃ l1 l2, a :: l = l1 ++ pyMinBy key a l :: l2
      ∧ (∀ q ∈ l1, key (pyMinBy key a l) < key q)
      ∧ (∀ q ∈ a :: l, key (pyMinBy key a l) ≤ key q) := by
  induction l generalizing a with
  | nil => exact ⟨[], [], by simp [pyMinBy], by simp, by simp [pyMinBy]⟩
  | cons q l ih =>
    by_cases hc : key q < key a
    · obtain ⟨l1, l2, hdec, hlt, hle⟩ := ih q
      have hm : pyMinBy key a (q :: l) = pyMinBy key q l := by
        simp [pyMinBy, List.foldl_cons, if_pos hc]
      have hqm : key (pyMinBy key q l) ≤ key q := hle q (List.mem_cons_self q l)
      refine ⟨a :: l1, l2, ?_, ?_, ?_⟩
      · rw [hm, List.cons_append, ← hdec]
      · intro x hx
        rcases List.mem_cons.mp hx with rfl | hx1
        · rw [hm]; exact lt_of_le_of_lt hqm hc
        · rw [hm]; exact hlt x hx1
      · intro x hx
        rcases List.mem_cons.mp hx with rfl | hx1
        · rw [hm]; exact le_of_lt (lt_of_le_of_lt hqm hc)
        · rw [hm]; exact hle x hx1
    · obtain ⟨l1, l2, hdec, hlt, hle⟩ := ih a
      have hm : pyMinBy key a (q :: l) = pyMinBy key a l := by
        simp [pyMinBy, List.foldl_cons, if_neg hc]
      have hqa : key a ≤ key q := le_of_not_lt hc
      have ham : key (pyMinBy key a l) ≤ key a := hle a (List.mem_cons_self a l)
      cases l1 with
      | nil =>
        simp only [List.nil_append] at hdec
        have ha := (List.cons.injEq _ _ _ _).mp hdec
        refine ⟨[], q :: l, ?_, ?_, ?_⟩
        · rw [hm, ← ha.1]
          simp
        · simp
        · intro x hx
          rcases List.mem_cons.mp hx with rfl | hx1
          · rw [hm]; exact ham
          rcases List.mem_cons.mp hx1 with rfl | hx2
          · rw [hm, ← ha.1]; exact hqa
          · rw [hm]; exact hle x (List.mem_cons_of_mem a hx2)
      | cons b t =>
        simp only [List.cons_append] at hdec
        have hab := (List.cons.injEq _ _ _ _).mp hdec
        have haml : key (pyMinBy key a l) < key a := by
          refine hlt a ?_
          rw [hab.1]
          exact List.mem_cons_self b t
        refine ⟨a :: q :: t, l2, ?_, ?_, ?_⟩
        · rw [hm, List.cons_append, List.cons_append, ← hab.2]
        · intro x hx
          rcases List.mem_cons.mp hx with rfl | hx1
          · rw [hm]; exact haml
          rcases List.mem_cons.mp hx1 with rfl | hx2
          · rw [hm]; exact lt_of_lt_of_le haml hqa
          · rw [hm]
            exact hlt x (List.mem_cons_of_mem b hx2)
        · intro x hx
          rcases List.mem_cons.mp hx with rfl | hx1
          · rw [hm]; exact ham
          rcases List.mem_cons.mp hx1 with rfl | hx2
          · rw [hm]; exact le_trans ham hqa
          · rw [hm]; exact hle x (List.mem_cons_of_mem a hx2)

lemma pyMinBy_mem (key : Point → Int) (a : Point) (l : List Point) :
    pyMinBy key a l ∈ a :: l := by
  obtain ⟨l1, l2, hdec, -, -⟩ := pyMinBy_first_min key a l
  rw [hdec]
  exact List.mem_append_right l1 (List.mem_cons_self _ _)

/-- The set of keys already seen after `pyDedupGo seen xs` has run. -/
def seenAfter : List PyVal → List PyVal → List PyVal
  | seen, [] => seen
  | seen, a :: l =>
    if a ∈ seen then seenAfter seen l else seenAfter (seen ++ [a]) l

lemma pyDedupGo_append (seen xs ys : List PyVal) :
    pyDedupGo seen (xs ++ ys) =
      pyDedupGo seen xs ++ pyDedupGo (seenAfter seen xs) ys := by
  induction xs generalizing seen with
  | nil => simp [pyDedupGo, seenAfter]
  | cons a xs ih =>
    by_cases h : a ∈ seen <;> simp [pyDedupGo, seenAfter, h, ih]

lemma mem_seenAfter_of_mem_seen {x : PyVal} {seen : List PyVal}
    (xs : List PyVal) (h : x ∈ seen) : x ∈ seenAfter seen xs := by
  induction xs generalizing seen with
  | nil => simpa [seenAfter]
  | cons a xs ih =>
    by_cases ha : a ∈ seen
    · simp only [seenAfter, if_pos ha]
      exact ih h
    · simp only [seenAfter, if_neg ha]
      exact ih (by simp [h])

lemma mem_seenAfter_of_mem {x : PyVal} (seen : List PyVal) {xs : List PyVal}
    (h : x ∈ xs) : x ∈ seenAfter seen xs := by
  induction xs generalizing seen with
  | nil => simp at h
  | cons a xs ih =>
    by_cases ha : a ∈ seen
    · simp only [seenAfter, if_pos ha]
      rcases List.mem_cons.mp h with rfl | h1
      · exact mem_seenAfter_of_mem_seen xs ha
      · exact ih seen h1
    · simp only [seenAfter, if_neg ha]
      rcases List.mem_cons.mp h with rfl | h1
      · exact mem_seenAfter_of_mem_seen xs (by simp)
      · exact ih (seen ++ [a]) h1

lemma pyDedupGo_eq_nil {seen ys : List PyVal} (h : ∀ a ∈ ys, a ∈ seen) :
    pyDedupGo seen ys = [] := by
  induction ys with
  | nil => simp [pyDedupGo]
  | cons a ys ih =>
    simp only [pyDedupGo, if_pos (h a (List.mem_cons_self a ys))]
    exact ih (fun b hb => h b (List.mem_cons_of_mem a hb))

/-- Deduplicating `l ++ l` gives the same result as deduplicating `l`. -/
lemma pyDedup_append_self (l : List PyVal) : pyDedup (l ++ l) = pyDedup l := by
  unfold pyDedup
  rw [pyDedupGo_append]
  rw [pyDedupGo_eq_nil (fun a ha => mem_seenAfter_of_mem [] ha)]
  simp

lemma mem_of_mem_pyDedupGo {x : PyVal} {seen l : List PyVal}
    (h : x ∈ pyDedupGo seen l) : x ∈ l := by
  induction l generalizing seen with
  | nil => simp [pyDedupGo] at h
  | cons a l ih =>
    by_cases ha : a ∈ seen
    · simp only [pyDedupGo, if_pos ha] at h
      exact List.mem_cons_of_mem a (ih h)
    · simp only [pyDedupGo, if_neg ha] at h
      rcases List.mem_cons.mp h with rfl | h1
      · exact List.mem_cons_self x l
      · exact List.mem_cons_of_mem a (ih h1)

lemma mem_pyDedupGo_of_mem {x : PyVal} {l : List PyVal} (h : x ∈ l) :
    ∀ seen, x ∈ seen ∨ x ∈ pyDedupGo seen l := by
  induction l with
  | nil => simp at h
  | cons a l ih =>
    intro seen
    by_cases ha : a ∈ seen
    · simp only [pyDedupGo, if_pos ha]
      rcases List.mem_cons.mp h with rfl | h1
      · exact Or.inl ha
      · exact ih h1 seen
    · simp only [pyDedupGo, if_neg ha]
      rcases List.mem_cons.mp h with rfl | h1
      · exact Or.inr (List.mem_cons_self x _)
      · rcases ih h1 (seen ++ [a]) with h2 | h2
        · rcases List.mem_append.mp h2 with h3 | h3
          · exact Or.inl h3
          · simp only [List.mem_singleton] at h3
            subst h3
            exact Or.inr (List.mem_cons_self x _)
        · exact Or.inr (List.mem_cons_of_mem a h2)

lemma mem_pyDedup_iff {x : PyVal} {l : List PyVal} :
    x ∈ pyDedup l ↔ x ∈ l := by
  constructor
  · exact mem_of_mem_pyDedupGo
  · intro h
    rcases mem_pyDedupGo_of_mem h [] with h1 | h1
    · simp at h1
    · exact h1

/-- Unfolding equation of `find_hull` on a non-empty point set. -/
lemma find_hull_cons (so : List Point) (a : Point) (rest : List Point)
    (p1 p2 : Point) :
    find_hull so (a :: rest) p1 p2 =
      (((find_hull (so ++ [pyMaxBy (fun p => |cross_product p1 p2 p|) a rest])
          (left_set (a :: rest)
            (pyMaxBy (fun p => |cross_product p1 p2 p|) a rest) p1)
          p1 (pyMaxBy (fun p => |cross_product p1 p2 p|) a rest)).1
        ++ [pyMaxBy (fun p => |cross_product p1 p2 p|) a rest])
        ++ (find_hull
            ((find_hull
                (so ++ [pyMaxBy (fun p => |cross_product p1 p2 p|) a rest])
                (left_set (a :: rest)
                  (pyMaxBy (fun p => |cross_product p1 p2 p|) a rest) p1)
                p1 (pyMaxBy (fun p => |cross_product p1 p2 p|) a rest)).2)
            (right_set (a :: rest) p2
              (pyMaxBy (fun p => |cross_product p1 p2 p|) a rest))
            (pyMaxBy (fun p => |cross_product p1 p2 p|) a rest) p2).1,
        (find_hull
            ((find_hull
                (so ++ [pyMaxBy (fun p => |cross_product p1 p2 p|) a rest])
                (left_set (a :: rest)
                  (pyMaxBy (fun p => |cross_product p1 p2 p|) a rest) p1)
                p1 (pyMaxBy (fun p => |cross_product p1 p2 p|) a rest)).2)
            (right_set (a :: rest) p2
              (pyMaxBy (fun p => |cross_product p1 p2 p|) a rest))
            (pyMaxBy (fun p => |cross_product p1 p2 p|) a rest) p2).2) := by
  rw [find_hull]

/-- Every point in either component of a `find_hull` result comes from the
point set (hull chain) or from the incoming search order plus the point set
(search order). -/
lemma find_hull_mem (n : Nat) :
    ∀ (so ps : List Point) (p1 p2 : Point), ps.length ≤ n →
      (∀ x ∈ (find_hull so ps p1 p2).1, x ∈ ps)
      ∧ (∀ x ∈ (find_hull so ps p1 p2).2, x ∈ so ∨ x ∈ ps) := by
  induction n with
  | zero =>
    intro so ps p1 p2 hlen
    have hps : ps = [] := List.length_eq_zero.mp (Nat.le_zero.mp hlen)
    subst hps
    refine ⟨?_, ?_⟩
    · intro x hx; simp [find_hull] at hx
    · intro x hx; simp only [find_hull] at hx; exact Or.inl hx
  | succ n ih =>
    intro so ps p1 p2 hlen
    match ps with
    | [] =>
      refine ⟨?_, ?_⟩
      · intro x hx; simp [find_hull] at hx
      · intro x hx; simp only [find_hull] at hx; exact Or.inl hx
    | a :: rest =>
      rw [find_hull_cons]
      set f := pyMaxBy (fun p => |cross_product p1 p2 p|) a rest with hf_def
      have hf : f ∈ a :: rest := pyMaxBy_mem _ a rest
      have hlsub : ∀ x ∈ left_set (a :: rest) f p1, x ∈ a :: rest :=
        fun x hx => (List.mem_filter.mp hx).1
      have hrsub : ∀ x ∈ right_set (a :: rest) p2 f, x ∈ a :: rest :=
        fun x hx => (List.mem_filter.mp hx).1
      have hllen : (left_set (a :: rest) f p1).length ≤ n :=
        Nat.lt_succ_iff.mp (lt_of_lt_of_le (left_set_length_lt a rest p1 p2) hlen)
      have hrlen : (right_set (a :: rest) p2 f).length ≤ n :=
        Nat.lt_succ_iff.mp (lt_of_lt_of_le (right_set_length_lt a rest p1 p2) hlen)
      obtain ⟨ihL1, ihL2⟩ :=
        ih (so ++ [f]) (left_set (a :: rest) f p1) p1 f hllen
      obtain ⟨ihR1, ihR2⟩ :=
        ih ((find_hull (so ++ [f]) (left_set (a :: rest) f p1) p1 f).2)
          (right_set (a :: rest) p2 f) f p2 hrlen
      refine ⟨?_, ?_⟩
      · intro x hx
        rcases List.mem_append.mp hx with hx1 | hx1
        · rcases List.mem_append.mp hx1 with hx2 | hx2
          · exact hlsub x (ihL1 x hx2)
          · simp only [List.mem_singleton] at hx2
            subst hx2
            exact hf
        · exact hrsub x (ihR1 x hx1)
      · intro x hx
        rcases ihR2 x hx with hx1 | hx1
        · rcases ihL2 x hx1 with hx2 | hx2
          · rcases List.mem_append.mp hx2 with hx3 | hx3
            · exact Or.inl hx3
            · simp only [List.mem_singleton] at hx3
              subst hx3
              exact Or.inr hf
          · exact Or.inr (hlsub x hx2)
        · exact Or.inr (hrsub x hx1)

lemma toPoint_isSome_of_isPointTuple {v : PyVal} (h : isPointTuple v = true) :
    ∃ p : Point, toPoint v = some p := by
  cases v with
  | other t => simp [isPointTuple] at h
  | tup l =>
    simp only [isPointTuple, beq_iff_eq] at h
    match l, h with
    | [x, y], _ => exact ⟨(x, y), rfl⟩

lemma ofPoint_eq_of_toPoint {v : PyVal} {p : Point} (h : toPoint v = some p) :
    ofPoint p = v := by
  match v with
  | .other t => simp [toPoint] at h
  | .tup [] => simp [toPoint] at h
  | .tup [x] => simp [toPoint] at h
  | .tup [x, y] =>
    simp only [toPoint, Option.some.injEq] at h
    subst h
    rfl
  | .tup (x :: y :: z :: l) => simp [toPoint] at h

lemma filterMap_toPoint_length {pts : List PyVal}
    (h : pts.all isPointTuple = true) :
    (pts.filterMap toPoint).length = pts.length := by
  induction pts with
  | nil => simp
  | cons v pts ih =>
    simp only [List.all_cons, Bool.and_eq_true] at h
    obtain ⟨p, hp⟩ := toPoint_isSome_of_isPointTuple h.1
    simp [List.filterMap_cons, hp, ih h.2]

/-- Every decoded deduplicated point re-encodes to an element of the input. -/
lemma mem_input_of_mem_points {input : List PyVal} {x : Point}
    (hx : x ∈ (pyDedup input).filterMap toPoint) : ofPoint x ∈ input := by
  obtain ⟨v, hv, hvx⟩ := List.mem_filterMap.mp hx
  rw [ofPoint_eq_of_toPoint hvx]
  exact mem_pyDedup_iff.mp hv

/-- `find_hull` only ever appends to the search order it is given. -/
lemma find_hull_so_extends (n : Nat) :
    ∀ (so ps : List Point) (p1 p2 : Point), ps.length ≤ n →
      ∃ extra, (find_hull so ps p1 p2).2 = so ++ extra := by
  induction n with
  | zero =>
    intro so ps p1 p2 hlen
    have hps : ps = [] := List.length_eq_zero.mp (Nat.le_zero.mp hlen)
    subst hps
    exact ⟨[], by simp [find_hull]⟩
  | succ n ih =>
    intro so ps p1 p2 hlen
    match ps with
    | [] => exact ⟨[], by simp [find_hull]⟩
    | a :: rest =>
      rw [find_hull_cons]
      set f := pyMaxBy (fun p => |cross_product p1 p2 p|) a rest with hf_def
      have hllen : (left_set (a :: rest) f p1).length ≤ n :=
        Nat.lt_succ_iff.mp (lt_of_lt_of_le (left_set_length_lt a rest p1 p2) hlen)
      have hrlen : (right_set (a :: rest) p2 f).length ≤ n :=
        Nat.lt_succ_iff.mp (lt_of_lt_of_le (right_set_length_lt a rest p1 p2) hlen)
      obtain ⟨e1, he1⟩ := ih (so ++ [f]) (left_set (a :: rest) f p1) p1 f hllen
      obtain ⟨e2, he2⟩ :=
        ih ((find_hull (so ++ [f]) (left_set (a :: rest) f p1) p1 f).2)
          (right_set (a :: rest) p2 f) f p2 hrlen
      refine ⟨[f] ++ e1 ++ e2, ?_⟩
      rw [he2, he1]
      simp

/-- C9: duplicate invariance.  `quick_hull(P)` and `quick_hull(P ++ P)`
agree: appending a repeated copy of the input changes neither the hull nor
the search order, because `dict.fromkeys` keeps first occurrences only. -/
theorem quickhull_duplicate_invariance (P : List PyVal) :
    quick_hull P = quick_hull (P ++ P) := by
  unfold quick_hull
  rw [pyDedup_append_self]

/-- C1 (code bug): for the vertical-line input `[(0,0),(0,1),(0,2)]`, both
`min` and `max` by x-coordinate pick the first point `(0,0)`, so `p1 = p2`,
every point is "collinear" with the degenerate seed edge, and `quick_hull`
returns the hull `[(0,0),(0,0)]`.  The input points `(0,1)` and `(0,2)` lie
strictly outside that degenerate polygon (whose every vertex is `(0,0)`),
violating subset containment. -/
theorem quickhull_c1_containment_failure :
    quick_hull [.tup [0, 0], .tup [0, 1], .tup [0, 2]] =
      .ok ([((0 : Int), (0 : Int)), (0, 0)], [(0, 0), (0, 0)])
    ∧ ((0 : Int), (1 : Int)) ∉ [((0 : Int), (0 : Int)), (0, 0)]
    ∧ ∀ x ∈ [((0 : Int), (0 : Int)), (0, 0)], x = (0, 0) := by
  refine ⟨?_, by decide, by decide⟩
  simp [quick_hull, quick_hull_core, pyDedup, pyDedupGo, isPointTuple, toPoint,
    find_hull, pyMinBy, pyMaxBy, left_set, right_set, cross_product]

/-- C2 (code bug): on the unit square the returned hull is
`[(0,1),(1,1),(1,0),(0,0)]`, which is traversed clockwise — its first
consecutive triple is a strict right turn (negative orientation) — although
the docstring and the spec promise counter-clockwise order with no
right-turning triple.  Moreover a single-point input yields the hull
`[(1,1),(1,1)]`, which has duplicate points and is not a simple polygon. -/
theorem quickhull_c2_orientation_failure :
    quick_hull [.tup [0, 0], .tup [1, 0], .tup [1, 1], .tup [0, 1]] =
      .ok ([((0 : Int), (1 : Int)), (1, 1), (1, 0), (0, 0)],
        [(0, 0), (1, 0), (1, 1), (0, 1)])
    ∧ cross_product ((0 : Int), (1 : Int)) (1, 1) (1, 0) < 0
    ∧ quick_hull [.tup [1, 1]] =
        .ok ([((1 : Int), (1 : Int)), (1, 1)], [(1, 1), (1, 1)]) := by
  refine ⟨?_, by decide, ?_⟩ <;>
    simp [quick_hull, quick_hull_core, pyDedup, pyDedupGo, isPointTuple,
      toPoint, find_hull, pyMinBy, pyMaxBy, left_set, right_set, cross_product]

/-- C3 (code bug): the degenerate sizes are not handled as the spec and the
repository's own tests demand.  0 points: `min` raises `ValueError` on an
empty sequence instead of returning empty results (test_empty_set expects
`[]`).  1 point: the hull is `[(1,1),(1,1)]`, the point twice, instead of
once (test_single_point expects `[(1,1)]`).  2 points: the hull is
`[p2, p1]` — `[(2,2),(1,1)]` for input `[(1,1),(2,2)]` — not the two points
in input order. -/
theorem quickhull_c3_degenerate_failure :
    quick_hull [] = .error .emptyMin
    ∧ quick_hull [.tup [1, 1]] =
        .ok ([((1 : Int), (1 : Int)), (1, 1)], [(1, 1), (1, 1)])
    ∧ quick_hull [.tup [1, 1], .tup [2, 2]] =
        .ok ([((2 : Int), (2 : Int)), (1, 1)], [(1, 1), (2, 2)]) := by
  refine ⟨by rfl, ?_, ?_⟩ <;>
    simp [quick_hull, quick_hull_core, pyDedup, pyDedupGo, isPointTuple,
      toPoint, find_hull, pyMinBy, pyMaxBy, left_set, right_set, cross_product]

lemma cross_product_rot (ea f p : Point) :
    cross_product f p ea = cross_product ea f p := by
  simp only [cross_product]
  ring

lemma cross_product_rot' (eb f p : Point) :
    cross_product eb p f = cross_product f eb p := by
  simp only [cross_product]
  ring

/-- C4 counterexample: in the recursion on the upper subset of the unit
square (`edge_a = (0,0)`, `edge_b = (1,0)`), the furthest point is `(1,1)`
and the actual left recursion subset contains `(0,1)`, whose orientation
relative to the directed edge `furthest → edge_a` is negative, not strictly
positive as the claim states. -/
theorem findhull_c4_counterexample :
    pyMaxBy (fun p => |cross_product ((0 : Int), (0 : Int)) (1, 0) p|)
        (1, 1) [(0, 1)] = (1, 1)
    ∧ ((0 : Int), (1 : Int)) ∈
        left_set [((1 : Int), (1 : Int)), (0, 1)] (1, 1) (0, 0)
    ∧ ¬ (0 < cross_product ((1 : Int), (1 : Int)) (0, 0) (0, 1)) := by
  refine ⟨by rfl, ?_, by decide⟩
  simp [left_set, cross_product]

/-- C4 (amended): the left recursion subset consists exactly of the subset
points strictly left of the directed edge `edge_a → furthest` (strictly
positive orientation for `edge_a → furthest`), and the right recursion
subset exactly of the points strictly left of `furthest → edge_b`; every
other subset point — in particular every point inside the triangle — is in
neither recursive subset. -/
theorem findhull_c4_amended (ps : List Point) (ea eb f : Point) :
    left_set ps f ea = ps.filter (fun p => 0 < cross_product ea f p)
    ∧ right_set ps eb f = ps.filter (fun p => 0 < cross_product f eb p)
    ∧ ∀ p ∈ ps, cross_product ea f p ≤ 0 → cross_product f eb p ≤ 0 →
        p ∉ left_set ps f ea ∧ p ∉ right_set ps eb f := by
  have hl : left_set ps f ea = ps.filter (fun p => 0 < cross_product ea f p) := by
    unfold left_set
    apply List.filter_congr
    intro p _
    rw [cross_product_rot ea f p]
  have hr : right_set ps eb f = ps.filter (fun p => 0 < cross_product f eb p) := by
    unfold right_set
    apply List.filter_congr
    intro p _
    rw [cross_product_rot' eb f p]
  refine ⟨hl, hr, ?_⟩
  intro p _ hpl hpr
  constructor
  · rw [hl]
    intro hmem
    have := (List.mem_filter.mp hmem).2
    simp only [decide_eq_true_eq] at this
    exact absurd this (not_lt.mpr hpl)
  · rw [hr]
    intro hmem
    have := (List.mem_filter.mp hmem).2
    simp only [decide_eq_true_eq] at this
    exact absurd this (not_lt.mpr hpr)

/-- Witness for C4 (amended) at a concrete instance: the point `(1,0)` lies
inside the triangle `(0,0), (1,1), (2,0)` and lands in neither recursion
subset. -/
theorem findhull_c4_amended_witness :
    ((1 : Int), (0 : Int)) ∉
        left_set [((1 : Int), (0 : Int))] (1, 1) (0, 0)
    ∧ ((1 : Int), (0 : Int)) ∉
        right_set [((1 : Int), (0 : Int))] (2, 0) (1, 1) :=
  (findhull_c4_amended [(1, 0)] (0, 0) (2, 0) (1, 1)).2.2
    (1, 0) (List.mem_singleton.mpr rfl) (by decide) (by decide)

/-- C7: `find_hull` on an empty subset returns the empty chain and leaves
the search order unchanged; on a non-empty subset it picks the furthest
point `f` — the first point of the subset, in iteration order, attaining the
maximum of `|orientation(edge_a, edge_b, p)|` — appends it to the search
order before either recursive call (the left recursion receives
`search_order ++ [f]`, the right recursion receives the left recursion's
resulting search order), and returns left result, then `f`, then right
result. -/
theorem findhull_c7 (so : List Point) (a : Point) (rest : List Point)
    (ea eb : Point) :
    find_hull so [] ea eb = ([], so)
    ∧ ∃ f l1 l2,
        a :: rest = l1 ++ f :: l2
        ∧ (∀ x ∈ l1, |cross_product ea eb x| < |cross_product ea eb f|)
        ∧ (∀ x ∈ a :: rest, |cross_product ea eb x| ≤ |cross_product ea eb f|)
        ∧ find_hull so (a :: rest) ea eb =
            (((find_hull (so ++ [f]) (left_set (a :: rest) f ea) ea f).1 ++ [f])
              ++ (find_hull
                  ((find_hull (so ++ [f]) (left_set (a :: rest) f ea) ea f).2)
                  (right_set (a :: rest) eb f) f eb).1,
              (find_hull
                  ((find_hull (so ++ [f]) (left_set (a :: rest) f ea) ea f).2)
                  (right_set (a :: rest) eb f) f eb).2) := by
  refine ⟨by simp [find_hull], ?_⟩
  obtain ⟨l1, l2, hdec, hlt, hle⟩ :=
    pyMaxBy_first_max (fun p => |cross_product ea eb p|) a rest
  exact ⟨pyMaxBy (fun p => |cross_product ea eb p|) a rest, l1, l2,
    hdec, hlt, hle, find_hull_cons so a rest ea eb⟩

/-- When validation succeeds, `quick_hull` is the core computation on the
decoded deduplicated points. -/
lemma quick_hull_eq_core {input : List PyVal}
    (hv : (pyDedup input).all isPointTuple = true) :
    quick_hull input =
      quick_hull_core ((pyDedup input).filterMap toPoint) := by
  unfold quick_hull
  rw [if_pos hv]

/-- C5 counterexample: for the input `[(0,1),(0,0),(1,0)]` (three distinct
points, no duplicates) the first SearchOrder element is `(0,1)`, although
`(0,0)` has the same (minimal) x-coordinate and a strictly smaller
y-coordinate — ties are not broken by minimum y. -/
theorem quickhull_c5_counterexample :
    quick_hull [.tup [0, 1], .tup [0, 0], .tup [1, 0]] =
      .ok ([((1 : Int), (0 : Int)), (0, 0), (0, 1)], [(0, 1), (1, 0), (0, 0)])
    ∧ ((0 : Int), (0 : Int)).1 = ((0 : Int), (1 : Int)).1
    ∧ ((0 : Int), (0 : Int)).2 < ((0 : Int), (1 : Int)).2 := by
  refine ⟨?_, by decide, by decide⟩
  simp [quick_hull, quick_hull_core, pyDedup, pyDedupGo, isPointTuple, toPoint,
    find_hull, pyMinBy, pyMaxBy, left_set, right_set, cross_product]

/-- C5 (amended): for any valid input whose deduplication is non-empty (in
particular for at least 3 points), the returned SearchOrder begins with the
seeds `p1` then `p2`, where `p1` is the first point in deduplicated
encounter order attaining the minimum x-coordinate (ties broken by first
occurrence, not by y) and `p2` is the first point attaining the maximum
x-coordinate. -/
theorem quickhull_c5_amended (input : List PyVal) (q : Point)
    (rest : List Point)
    (hv : (pyDedup input).all isPointTuple = true)
    (hpts : (pyDedup input).filterMap toPoint = q :: rest) :
    ∃ hull so extra p1 p2 l1 l2 m1 m2,
      quick_hull input = .ok (hull, so)
      ∧ so = p1 :: p2 :: extra
      ∧ q :: rest = l1 ++ p1 :: l2
      ∧ (∀ x ∈ l1, p1.1 < x.1)
      ∧ (∀ x ∈ q :: rest, p1.1 ≤ x.1)
      ∧ q :: rest = m1 ++ p2 :: m2
      ∧ (∀ x ∈ m1, x.1 < p2.1)
      ∧ (∀ x ∈ q :: rest, x.1 ≤ p2.1) := by
  obtain ⟨l1, l2, hld, hllt, hlle⟩ := pyMinBy_first_min (fun p => p.1) q rest
  obtain ⟨m1, m2, hmd, hmlt, hmle⟩ := pyMaxBy_first_max (fun p => p.1) q rest
  set p1 := pyMinBy (fun p => p.1) q rest with hp1
  set p2 := pyMaxBy (fun p => p.1) q rest with hp2
  set upper := (q :: rest).filter (fun p => 0 < cross_product p1 p2 p) with hup
  set lower := (q :: rest).filter (fun p => cross_product p1 p2 p < 0) with hlo
  obtain ⟨e1, he1⟩ := find_hull_so_extends upper.length [p1, p2] upper p1 p2 le_rfl
  obtain ⟨e2, he2⟩ :=
    find_hull_so_extends lower.length (find_hull [p1, p2] upper p1 p2).2
      lower p2 p1 le_rfl
  refine ⟨((find_hull [p1, p2] upper p1 p2).1 ++ [p2])
      ++ ((find_hull (find_hull [p1, p2] upper p1 p2).2 lower p2 p1).1 ++ [p1]),
    (find_hull (find_hull [p1, p2] upper p1 p2).2 lower p2 p1).2,
    e1 ++ e2, p1, p2, l1, l2, m1, m2, ?_, ?_,
    hld, hllt, hlle, hmd, hmlt, hmle⟩
  · rw [quick_hull_eq_core hv, hpts]
    rfl
  · rw [he2, he1]
    simp

/-- Witness for C5 (amended) at the concrete input `[(0,1),(0,0),(1,0)]`. -/
theorem quickhull_c5_amended_witness :
    ∃ hull so extra p1 p2 l1 l2 m1 m2,
      quick_hull [.tup [0, 1], .tup [0, 0], .tup [1, 0]] = .ok (hull, so)
      ∧ so = p1 :: p2 :: extra
      ∧ [((0 : Int), (1 : Int)), (0, 0), (1, 0)] = l1 ++ p1 :: l2
      ∧ (∀ x ∈ l1, p1.1 < x.1)
      ∧ (∀ x ∈ [((0 : Int), (1 : Int)), (0, 0), (1, 0)], p1.1 ≤ x.1)
      ∧ [((0 : Int), (1 : Int)), (0, 0), (1, 0)] = m1 ++ p2 :: m2
      ∧ (∀ x ∈ m1, x.1 < p2.1)
      ∧ (∀ x ∈ [((0 : Int), (1 : Int)), (0, 0), (1, 0)], x.1 ≤ p2.1) :=
  quickhull_c5_amended [.tup [0, 1], .tup [0, 0], .tup [1, 0]]
    (0, 1) [(0, 0), (1, 0)] (by rfl) (by rfl)

/-- C6: for any valid input with non-empty deduplication (in particular for
at least 3 points), with seeds `p1` (Python `min` by x) and `p2` (Python
`max` by x), the remaining points are partitioned by the sign of
`orientation(p1, p2, p)`: strictly positive points form the upper ("left")
subset, strictly negative the lower ("right") subset, collinear points join
neither; and the returned hull is the upper recursion result, then `p2`,
then the lower recursion result, then `p1`. -/
theorem quickhull_c6 (input : List PyVal) (q : Point) (rest : List Point)
    (hv : (pyDedup input).all isPointTuple = true)
    (hpts : (pyDedup input).filterMap toPoint = q :: rest) :
    ∃ p1 p2 upper lower,
      p1 = pyMinBy (fun p => p.1) q rest
      ∧ p2 = pyMaxBy (fun p => p.1) q rest
      ∧ upper = (q :: rest).filter (fun p => 0 < cross_product p1 p2 p)
      ∧ lower = (q :: rest).filter (fun p => cross_product p1 p2 p < 0)
      ∧ (∀ p ∈ q :: rest, cross_product p1 p2 p = 0 → p ∉ upper ∧ p ∉ lower)
      ∧ quick_hull input =
          .ok (((find_hull [p1, p2] upper p1 p2).1 ++ [p2])
              ++ ((find_hull (find_hull [p1, p2] upper p1 p2).2
                    lower p2 p1).1 ++ [p1]),
            (find_hull (find_hull [p1, p2] upper p1 p2).2 lower p2 p1).2) := by
  refine ⟨_, _, _, _, rfl, rfl, rfl, rfl, ?_, ?_⟩
  · intro p hp h0
    constructor <;> intro hmem <;>
      [have h2 := (List.mem_filter.mp hmem).2;
       have h2 := (List.mem_filter.mp hmem).2] <;> simp [h0] at h2
  · rw [quick_hull_eq_core hv, hpts]
    rfl

/-- Witness for C6 at the unit-square input. -/
theorem quickhull_c6_witness :
    ∃ p1 p2 upper lower,
      p1 = pyMinBy (fun p => p.1) (0, 0) [(1, 0), (1, 1), (0, 1)]
      ∧ p2 = pyMaxBy (fun p => p.1) (0, 0) [(1, 0), (1, 1), (0, 1)]
      ∧ upper = [((0 : Int), (0 : Int)), (1, 0), (1, 1), (0, 1)].filter
          (fun p => 0 < cross_product p1 p2 p)
      ∧ lower = [((0 : Int), (0 : Int)), (1, 0), (1, 1), (0, 1)].filter
          (fun p => cross_product p1 p2 p < 0)
      ∧ (∀ p ∈ [((0 : Int), (0 : Int)), (1, 0), (1, 1), (0, 1)],
          cross_product p1 p2 p = 0 → p ∉ upper ∧ p ∉ lower)
      ∧ quick_hull [.tup [0, 0], .tup [1, 0], .tup [1, 1], .tup [0, 1]] =
          .ok (((find_hull [p1, p2] upper p1 p2).1 ++ [p2])
              ++ ((find_hull (find_hull [p1, p2] upper p1 p2).2
                    lower p2 p1).1 ++ [p1]),
            (find_hull (find_hull [p1, p2] upper p1 p2).2 lower p2 p1).2) :=
  quickhull_c6 [.tup [0, 0], .tup [1, 0], .tup [1, 1], .tup [0, 1]]
    (0, 0) [(1, 0), (1, 1), (0, 1)] (by rfl) (by rfl)

lemma pyDedup_ne_nil {input : List PyVal} (h : input ≠ []) :
    pyDedup input ≠ [] := by
  match input with
  | [] => exact absurd rfl h
  | a :: l => simp [pyDedup, pyDedupGo]

lemma all_pyDedup_iff {input : List PyVal} :
    ((pyDedup input).all isPointTuple = true) ↔
      ∀ v ∈ input, isPointTuple v = true := by
  rw [List.all_eq_true]
  constructor
  · intro h v hv
    exact h v (mem_pyDedup_iff.mpr hv)
  · intro h v hv
    exact h v (mem_pyDedup_iff.mp hv)

/-- C8 counterexample: on the empty input no element is malformed, yet
`quick_hull` still raises a `ValueError` — the one coming from
`min(points, key=...)` on an empty sequence, not the validation error.  So
the validation error is not the only failure mode. -/
theorem quickhull_c8_counterexample :
    quick_hull [] = .error .emptyMin
    ∧ PyErr.emptyMin ≠ PyErr.invalidInput
    ∧ ∀ v ∈ ([] : List PyVal), isPointTuple v = true :=
  ⟨rfl, by decide, by simp⟩

/-- C8 (amended): for every non-empty input, `quick_hull` raises the
validation `ValueError` if and only if some input element is not a
2-tuple, and that is then the only error raised (the `min`-on-empty error
occurs only for the empty input).  Validation happens after deduplication
but before any geometric computation, so no partial result is produced on
error. -/
theorem quickhull_c8_amended (input : List PyVal) (hne : input ≠ []) :
    (quick_hull input = .error .invalidInput ↔
      ¬ ∀ v ∈ input, isPointTuple v = true)
    ∧ ∀ e, quick_hull input = .error e → e = .invalidInput := by
  by_cases hv : (pyDedup input).all isPointTuple = true
  · have hval : ∀ v ∈ input, isPointTuple v = true := all_pyDedup_iff.mp hv
    have hok : ∃ r, quick_hull input = .ok r := by
      rw [quick_hull_eq_core hv]
      have hlen : ((pyDedup input).filterMap toPoint).length =
          (pyDedup input).length := filterMap_toPoint_length hv
      cases hpts : (pyDedup input).filterMap toPoint with
      | nil =>
        exfalso
        rw [hpts] at hlen
        exact pyDedup_ne_nil hne
          (List.length_eq_zero.mp hlen.symm)
      | cons q rest => exact ⟨_, rfl⟩
    obtain ⟨r, hr⟩ := hok
    refine ⟨iff_of_false (by simp [hr]) (not_not_intro hval), ?_⟩
    intro e he
    rw [hr] at he
    simp at he
  · have herr : quick_hull input = .error .invalidInput := by
      unfold quick_hull
      rw [if_neg hv]
    refine ⟨iff_of_true herr ?_, ?_⟩
    · intro hall
      exact hv (all_pyDedup_iff.mpr hall)
    · intro e he
      rw [herr] at he
      exact (Except.error.inj he).symm

/-- Witness for C8 (amended) at the concrete input `[other 0]` (a non-tuple
element): the validation error is raised, and it is the only error. -/
theorem quickhull_c8_amended_witness :
    (quick_hull [.other 0] = .error .invalidInput ↔
      ¬ ∀ v ∈ [PyVal.other 0], isPointTuple v = true)
    ∧ ∀ e, quick_hull [.other 0] = .error e → e = .invalidInput :=
  quickhull_c8_amended [.other 0] (by simp)

/-- C10: every point of both returned sequences re-encodes to an element of
the caller's input list — `quick_hull` never fabricates a point (and, being
modelled as a pure function of its input, it leaves the input unchanged). -/
theorem quickhull_c10 (input : List PyVal) (hull so : List Point)
    (hok : quick_hull input = .ok (hull, so)) :
    (∀ p ∈ hull, ofPoint p ∈ input) ∧ (∀ p ∈ so, ofPoint p ∈ input) := by
  by_cases hv : (pyDedup input).all isPointTuple = true
  · rw [quick_hull_eq_core hv] at hok
    cases hpts : (pyDedup input).filterMap toPoint with
    | nil =>
      rw [hpts] at hok
      simp [quick_hull_core] at hok
    | cons q rest =>
      rw [hpts] at hok
      have hmem : ∀ x ∈ q :: rest, ofPoint x ∈ input := by
        intro x hx
        exact mem_input_of_mem_points (by rw [hpts]; exact hx)
      set p1 := pyMinBy (fun p => p.1) q rest with hp1
      set p2 := pyMaxBy (fun p => p.1) q rest with hp2
      set upper := (q :: rest).filter (fun p => 0 < cross_product p1 p2 p)
        with hup
      set lower := (q :: rest).filter (fun p => cross_product p1 p2 p < 0)
        with hlo
      have hcore : quick_hull_core (q :: rest) =
          .ok (((find_hull [p1, p2] upper p1 p2).1 ++ [p2])
              ++ ((find_hull (find_hull [p1, p2] upper p1 p2).2
                    lower p2 p1).1 ++ [p1]),
            (find_hull (find_hull [p1, p2] upper p1 p2).2 lower p2 p1).2) := rfl
      rw [hcore] at hok
      simp only [Except.ok.injEq, Prod.mk.injEq] at hok
      obtain ⟨hhull, hso⟩ := hok
      subst hhull
      subst hso
      have hA := find_hull_mem upper.length [p1, p2] upper p1 p2 le_rfl
      have hB := find_hull_mem lower.length
        (find_hull [p1, p2] upper p1 p2).2 lower p2 p1 le_rfl
      have hup_sub : ∀ x ∈ upper, x ∈ q :: rest :=
        fun x hx => (List.mem_filter.mp hx).1
      have hlo_sub : ∀ x ∈ lower, x ∈ q :: rest :=
        fun x hx => (List.mem_filter.mp hx).1
      have hp1m : p1 ∈ q :: rest := pyMinBy_mem _ q rest
      have hp2m : p2 ∈ q :: rest := pyMaxBy_mem _ q rest
      have hA2 : ∀ x ∈ (find_hull [p1, p2] upper p1 p2).2, x ∈ q :: rest := by
        intro x hx
        rcases hA.2 x hx with h1 | h1
        · rcases List.mem_cons.mp h1 with rfl | h2
          · exact hp1m
          · simp only [List.mem_singleton] at h2
            subst h2
            exact hp2m
        · exact hup_sub x h1
      constructor
      · intro p hp
        apply hmem
        rcases List.mem_append.mp hp with h1 | h1
        · rcases List.mem_append.mp h1 with h2 | h2
          · exact hup_sub p (hA.1 p h2)
          · simp only [List.mem_singleton] at h2
            subst h2
            exact hp2m
        · rcases List.mem_append.mp h1 with h2 | h2
          · exact hlo_sub p (hB.1 p h2)
          · simp only [List.mem_singleton] at h2
            subst h2
            exact hp1m
      · intro p hp
        apply hmem
        rcases hB.2 p hp with h1 | h1
        · exact hA2 p h1
        · exact hlo_sub p h1
  · unfold quick_hull at hok
    rw [if_neg hv] at hok
    simp at hok

/-- Witness for C10 at the unit-square input. -/
theorem quickhull_c10_witness :
    (∀ p ∈ [((0 : Int), (1 : Int)), (1, 1), (1, 0), (0, 0)],
        ofPoint p ∈ [PyVal.tup [0, 0], .tup [1, 0], .tup [1, 1], .tup [0, 1]])
    ∧ (∀ p ∈ [((0 : Int), (0 : Int)), (1, 0), (1, 1), (0, 1)],
        ofPoint p ∈
          [PyVal.tup [0, 0], .tup [1, 0], .tup [1, 1], .tup [0, 1]]) :=
  quickhull_c10 [.tup [0, 0], .tup [1, 0], .tup [1, 1], .tup [0, 1]]
    [(0, 1), (1, 1), (1, 0), (0, 0)] [(0, 0), (1, 0), (1, 1), (0, 1)]
    (by simp [quick_hull, quick_hull_core, pyDedup, pyDedupGo, isPointTuple,
      toPoint, find_hull, pyMinBy, pyMaxBy, left_set, right_set,
      cross_product])

